import Mathlib

/-!
# Verification of the fuzzy-search engine

Shallow embedding of the core of `src/main.rs`:

* `calc_dist_bytes` — the rolling-two-row Levenshtein dynamic program
  (`calc_dist_bytes` in the source), over byte sequences modelled as `List Nat`.
* `fuzzy_match` — the tokenized matcher (`fuzzy_match` in the source).  Rust
  strings are modelled as lists of Unicode scalar values (`List Nat`);
  `String::as_bytes` is modelled by UTF-8 encoding (`strBytes`).
* `post_search` — the search pipeline (`post_search` in the source): score all
  names, keep those with distance `< 3`, stable-sort by distance, take 10.
  The rayon `par_iter().filter_map().collect()` is an order-preserving
  (indexed) parallel map, so its meaning is the sequential `List.filterMap`;
  Rust's `sort_by_key` is a stable sort, modelled by the canonical stable sort
  `List.insertionSort` on the distance order.

The reference specification of edit distance is `lev` (the textbook
recurrence) together with the edit-script characterisation `EditStep`/`ChainN`
(a chain of single-character insertions, deletions and substitutions).
-/

/-- Textbook Levenshtein recurrence: unit cost for insertion, deletion and
substitution, zero cost for a matching character. -/
def lev : List Nat → List Nat → Nat
  | [], b => b.length
  | a, [] => a.length
  | x :: xs, y :: ys =>
      min (min (lev xs (y :: ys) + 1) (lev (x :: xs) ys + 1))
        (lev xs ys + (if x = y then 0 else 1))

/-- Inner `j`-loop of `calc_dist_bytes`: given the character `c = a[i]`, the
remaining suffix of `b`, the tail of the previous row aligned with it (the cell
`prev[j]` first), and the last value written into the current row (`curr[j]`),
produce the cells `curr[j+1], …` of the current row.  Mirrors
`curr[j + 1] = (prev[j + 1] + 1).min(curr[j] + 1).min(prev[j] + cost)`. -/
def rowAux (c : Nat) : List Nat → List Nat → Nat → List Nat
  | bj :: bs, p0 :: p1 :: ps, left =>
      (min (min (p1 + 1) (left + 1)) (p0 + (if c = bj then 0 else 1))) ::
        rowAux c bs (p1 :: ps) (min (min (p1 + 1) (left + 1)) (p0 + (if c = bj then 0 else 1)))
  | _, _, _ => []

/-- Outer `i`-loop of `calc_dist_bytes`: consume the characters of `a`,
carrying the previous row and the loop index; each iteration writes
`curr[0] = i + 1` and runs the inner loop, then the rows are swapped. -/
def levLoop : List Nat → List Nat → List Nat → Nat → List Nat
  | [], _, prev, _ => prev
  | c :: cs, b, prev, i => levLoop cs b ((i + 1) :: rowAux c b prev (i + 1)) (i + 1)

/-- Embedding of `calc_dist_bytes` from `src/main.rs`: early returns for the
empty sides, then the two-row dynamic program starting from the row
`0..=len_b`, answering `prev[len_b]`. -/
def calc_dist_bytes (a : List Nat) (b : List Nat) : Nat :=
  if a.length = 0 then b.length
  else if b.length = 0 then a.length
  else (levLoop a b (List.range (b.length + 1)) 0).getD b.length 0

/-- One single-character edit: insertion, deletion, or substitution, at any
position (positions in the middle are reached through `cons`). -/
inductive EditStep : List Nat → List Nat → Prop
  | insert (c : Nat) (l : List Nat) : EditStep l (c :: l)
  | delete (c : Nat) (l : List Nat) : EditStep (c :: l) l
  | subst (c d : Nat) (l : List Nat) : EditStep (c :: l) (d :: l)
  | cons (c : Nat) {l l' : List Nat} : EditStep l l' → EditStep (c :: l) (c :: l')

/-- `ChainN n a b`: `b` is reachable from `a` by exactly `n` single-character
edits.  The classic Levenshtein distance of `a` and `b` is the least such `n`. -/
inductive ChainN : Nat → List Nat → List Nat → Prop
  | refl (a : List Nat) : ChainN 0 a a
  | step {a b c : List Nat} {n : Nat} : EditStep a b → ChainN n b c → ChainN (n + 1) a c

/-- Rust `char::is_whitespace`: the Unicode `White_Space` property, on scalar
values. -/
def isWhitespaceChar (c : Nat) : Bool :=
  decide ((9 ≤ c ∧ c ≤ 13) ∨ c = 32 ∨ c = 133 ∨ c = 160 ∨ c = 5760 ∨
    (8192 ≤ c ∧ c ≤ 8202) ∨ c = 8232 ∨ c = 8233 ∨ c = 8239 ∨ c = 8287 ∨ c = 12288)

/-- Helper for `splitWs`: accumulate the current token (reversed). -/
def splitWsAux : List Nat → List Nat → List (List Nat)
  | [], acc => if acc.isEmpty then [] else [acc.reverse]
  | c :: cs, acc =>
      if isWhitespaceChar c then
        (if acc.isEmpty then splitWsAux cs [] else acc.reverse :: splitWsAux cs [])
      else splitWsAux cs (c :: acc)

/-- Rust `str::split_whitespace`: maximal runs of non-whitespace characters;
empty tokens from repeated separators are discarded. -/
def splitWs (s : List Nat) : List (List Nat) := splitWsAux s []

/-- UTF-8 encoding of one Unicode scalar value. -/
def utf8EncodeChar (c : Nat) : List Nat :=
  if c < 128 then [c]
  else if c < 2048 then [192 + c / 64, 128 + c % 64]
  else if c < 65536 then [224 + c / 4096, 128 + (c / 64) % 64, 128 + c % 64]
  else [240 + c / 262144, 128 + (c / 4096) % 64, 128 + (c / 64) % 64, 128 + c % 64]

/-- Rust `str::as_bytes`: the UTF-8 byte sequence of a string. -/
def strBytes (s : List Nat) : List Nat := (s.map utf8EncodeChar).flatten

/-- `usize::MAX` (64-bit target). -/
def usizeMax : Nat := 2 ^ 64 - 1

/-- Embedding of `fuzzy_match` from `src/main.rs`.  The guard is
`!full_name.contains(' ')` — the ASCII space character only — while the split
in the other branch is `split_whitespace`, i.e. all Unicode whitespace.
`Iterator::min` is a fold of `min`; `.unwrap_or(usize::MAX)` gives `usizeMax`
when there is no token. -/
def fuzzy_match (query_bytes : List Nat) (full_name : List Nat) : Nat :=
  if ¬ (32 ∈ full_name) then calc_dist_bytes query_bytes (strBytes full_name)
  else
    match (splitWs full_name).map (fun part => calc_dist_bytes query_bytes (strBytes part)) with
    | [] => usizeMax
    | d :: ds => ds.foldl min d

/-- The spec's `TokenMatcher` policy, written from the spec's words: branch on
"contains whitespace" (any whitespace), not on the space character.  Used only
to compare against the implementation's `fuzzy_match`. -/
def fuzzy_match_spec (query_bytes : List Nat) (full_name : List Nat) : Nat :=
  if ¬ full_name.any isWhitespaceChar then calc_dist_bytes query_bytes (strBytes full_name)
  else
    match (splitWs full_name).map (fun part => calc_dist_bytes query_bytes (strBytes part)) with
    | [] => usizeMax
    | d :: ds => ds.foldl min d

/-- `SearchResult` from `src/main.rs`: a candidate name with its distance. -/
structure SearchResult where
  name : List Nat
  distance : Nat
deriving DecidableEq

/-- The parallel fan-out/filter of `post_search`: score every name with
`fuzzy_match` and keep those with distance `< 3`, in corpus order
(`par_iter().filter_map().collect()` is an order-preserving indexed map). -/
def scoreFilter (query : List Nat) (names : List (List Nat)) : List SearchResult :=
  names.filterMap (fun name =>
    let d := fuzzy_match query name
    if d < 3 then some ⟨name, d⟩ else none)

/-- The comparison used by `results.sort_by_key(|item| item.distance)`. -/
def distLe (x y : SearchResult) : Prop := x.distance ≤ y.distance

instance : DecidableRel distLe := fun x y => Nat.decLe x.distance y.distance

instance : IsTotal SearchResult distLe := ⟨fun x y => Nat.le_total x.distance y.distance⟩

instance : IsTrans SearchResult distLe := ⟨fun _ _ _ h h' => Nat.le_trans h h'⟩

/-- Embedding of `post_search` from `src/main.rs` (the pure part, timing
aside): score and filter in corpus order, stable-sort ascending by distance
(`sort_by_key` is stable; `insertionSort` is the canonical stable sort), and
truncate to the first 10 entries. -/
def post_search (query : List Nat) (names : List (List Nat)) : List SearchResult :=
  (List.insertionSort distLe (scoreFilter query names)).take 10

/-- `SearchResponse` from `src/main.rs`; `response_time` is the elapsed-time
measurement, supplied by the environment. -/
structure SearchResponse where
  results : List SearchResult
  response_time : Nat

/-- The full response: the pure results plus the externally measured time. -/
def searchResponse (query : List Nat) (names : List (List Nat)) (elapsed : Nat) :
    SearchResponse :=
  { results := post_search query names, response_time := elapsed }

/-- The DP row after consuming the prefix `p` of `a`, beyond the column of the
prefix `t` of `b`: the distances of `p` to each longer prefix of `b` obtained
by extending `t` through the remaining characters `r`.  Specification device
for the row invariant of `levLoop`. -/
def levCells (p : List Nat) : List Nat → List Nat → List Nat
  | _, [] => []
  | t, d :: r => lev p (t ++ [d]) :: levCells p (t ++ [d]) r

/-! ## Basic facts about the `lev` recurrence -/

theorem lev_nil_left (b : List Nat) : lev [] b = b.length := by
  simp [lev]

theorem lev_nil_right (a : List Nat) : lev a [] = a.length := by
  cases a <;> simp [lev]

theorem lev_cons_cons (x y : Nat) (xs ys : List Nat) :
    lev (x :: xs) (y :: ys) =
      min (min (lev xs (y :: ys) + 1) (lev (x :: xs) ys + 1))
        (lev xs ys + (if x = y then 0 else 1)) := by
  simp [lev]

theorem lev_cons_le (x : Nat) (a b : List Nat) : lev (x :: a) b ≤ lev a b + 1 := by
  cases b with
  | nil => simp [lev_nil_right]
  | cons y ys =>
      rw [lev_cons_cons]
      exact le_trans (min_le_left _ _) (min_le_left _ _)

theorem lev_cons_le_right (y : Nat) (a b : List Nat) : lev a (y :: b) ≤ lev a b + 1 := by
  cases a with
  | nil => simp [lev_nil_left]
  | cons x xs =>
      rw [lev_cons_cons]
      exact le_trans (min_le_left _ _) (min_le_right _ _)

theorem lev_le_cons (x : Nat) (a b : List Nat) : lev a b ≤ lev (x :: a) b + 1 := by
  induction b with
  | nil => simp [lev_nil_right]; omega
  | cons y ys ih =>
      rw [lev_cons_cons]
      have h1 : lev a (y :: ys) ≤ lev a ys + 1 := lev_cons_le_right y a ys
      have hc : (if x = y then 0 else 1) ≤ 1 := by split <;> simp
      simp only [Nat.min_def]
      split_ifs <;> omega

theorem lev_le_cons_right (y : Nat) (a b : List Nat) : lev a b ≤ lev a (y :: b) + 1 := by
  induction a with
  | nil => simp [lev_nil_left]; omega
  | cons x xs ih =>
      rw [lev_cons_cons]
      have h1 : lev (x :: xs) b ≤ lev xs b + 1 := lev_cons_le x xs b
      have hc : (if x = y then 0 else 1) ≤ 1 := by split <;> simp
      simp only [Nat.min_def]
      split_ifs <;> omega

theorem lev_self (a : List Nat) : lev a a = 0 := by
  induction a with
  | nil => simp [lev]
  | cons x xs ih =>
      rw [lev_cons_cons]
      simp only [if_pos rfl, ih]
      simp only [Nat.min_def]
      split_ifs <;> omega

/-! ## Edit steps lower- and upper-bound the recurrence -/

theorem editStep_lev_le {a a' : List Nat} (h : EditStep a a') :
    ∀ b, lev a' b ≤ lev a b + 1 := by
  induction h with
  | insert c l => exact fun b => lev_cons_le c l b
  | delete c l => exact fun b => lev_le_cons c l b
  | subst c d l =>
      intro b
      induction b with
      | nil => simp [lev_nil_right]
      | cons y ys ihb =>
          rw [lev_cons_cons, lev_cons_cons]
          have hcd : (if d = y then 0 else 1) ≤ 1 := by split <;> simp
          simp only [Nat.min_def]
          split_ifs <;> omega
  | cons c h ih =>
      intro b
      induction b with
      | nil =>
          have := ih []
          simp only [lev_nil_right, List.length_cons] at *
          omega
      | cons y ys ihb =>
          rw [lev_cons_cons, lev_cons_cons]
          have h1 := ih (y :: ys)
          have h2 := ih ys
          simp only [Nat.min_def]
          split_ifs <;> omega

theorem editStep_symm {a b : List Nat} (h : EditStep a b) : EditStep b a := by
  induction h with
  | insert c l => exact EditStep.delete c l
  | delete c l => exact EditStep.insert c l
  | subst c d l => exact EditStep.subst d c l
  | cons c _ ih => exact EditStep.cons c ih

/-! ## Chains of edits -/

theorem chainN_cons (c : Nat) {n : Nat} {l l' : List Nat} (h : ChainN n l l') :
    ChainN n (c :: l) (c :: l') := by
  induction h with
  | refl a => exact ChainN.refl _
  | step e _ ih => exact ChainN.step (EditStep.cons c e) ih

theorem chainN_snoc {n : Nat} {a b c : List Nat} (h : ChainN n a b) (e : EditStep b c) :
    ChainN (n + 1) a c := by
  induction h with
  | refl a => exact ChainN.step e (ChainN.refl _)
  | step e' _ ih => exact ChainN.step e' (ih e)

theorem chainN_symm {n : Nat} {a b : List Nat} (h : ChainN n a b) : ChainN n b a := by
  induction h with
  | refl a => exact ChainN.refl _
  | step e _ ih => exact chainN_snoc ih (editStep_symm e)

theorem chainN_trans {m n : Nat} {a b c : List Nat}
    (h1 : ChainN m a b) (h2 : ChainN n b c) : ChainN (m + n) a c := by
  induction h1 with
  | refl a => simpa using h2
  | step e _ ih => simpa [Nat.succ_add] using ChainN.step e (ih h2)

theorem chainN_nil_left (b : List Nat) : ChainN b.length [] b := by
  induction b with
  | nil => exact ChainN.refl _
  | cons y ys ih => exact chainN_snoc ih (EditStep.insert y ys)

theorem chainN_nil_right (a : List Nat) : ChainN a.length a [] := by
  induction a with
  | nil => exact ChainN.refl _
  | cons x xs ih => exact ChainN.step (EditStep.delete x xs) ih

/-- Any chain of `n` edits from `a` to `b` has `n` at least `lev a b`. -/
theorem chainN_lev_le {n : Nat} {a b : List Nat} (h : ChainN n a b) : lev a b ≤ n := by
  induction h with
  | refl a => simp [lev_self]
  | step e _ ih =>
      have h1 := editStep_lev_le (editStep_symm e)
      exact le_trans (h1 _) (by omega)

theorem lev_cons_same (x : Nat) (xs ys : List Nat) : lev (x :: xs) (x :: ys) = lev xs ys := by
  rw [lev_cons_cons]
  simp only [if_pos rfl, Nat.add_zero]
  have h3 := lev_le_cons x xs ys
  have h4 := lev_le_cons_right x xs ys
  simp only [Nat.min_def]
  split_ifs <;> omega

/-- There is a chain of exactly `lev a b` edits from `a` to `b`. -/
theorem exists_chain : (a b : List Nat) → ChainN (lev a b) a b
  | [], b => by simpa [lev_nil_left] using chainN_nil_left b
  | x :: xs, [] => by simpa [lev_nil_right] using chainN_nil_right (x :: xs)
  | x :: xs, y :: ys => by
      by_cases hxy : x = y
      · subst hxy
        rw [lev_cons_same]
        exact chainN_cons x (exists_chain xs ys)
      · have hsplit : lev (x :: xs) (y :: ys) = lev xs (y :: ys) + 1 ∨
            lev (x :: xs) (y :: ys) = lev (x :: xs) ys + 1 ∨
            lev (x :: xs) (y :: ys) = lev xs ys + 1 := by
          rw [lev_cons_cons]
          simp only [if_neg hxy]
          rcases min_cases (min (lev xs (y :: ys) + 1) (lev (x :: xs) ys + 1))
              (lev xs ys + 1) with ⟨h, _⟩ | ⟨h, _⟩
          · rcases min_cases (lev xs (y :: ys) + 1) (lev (x :: xs) ys + 1) with
              ⟨h', _⟩ | ⟨h', _⟩ <;> rw [h, h']
            · exact Or.inl rfl
            · exact Or.inr (Or.inl rfl)
          · rw [h]
            exact Or.inr (Or.inr rfl)
        rcases hsplit with h | h | h <;> rw [h]
        · exact ChainN.step (EditStep.delete x xs) (exists_chain xs (y :: ys))
        · exact chainN_snoc (exists_chain (x :: xs) ys) (EditStep.insert y ys)
        · exact ChainN.step (EditStep.subst x y xs) (chainN_cons y (exists_chain xs ys))
termination_by a b => a.length + b.length

/-! ## Reversal invariance and the recurrence at the tail end -/

theorem editStep_snoc_insert : ∀ (u : List Nat) (c : Nat), EditStep u (u ++ [c])
  | [], c => EditStep.insert c []
  | x :: u, c => EditStep.cons x (editStep_snoc_insert u c)

theorem editStep_snoc_subst : ∀ (u : List Nat) (c d : Nat), EditStep (u ++ [c]) (u ++ [d])
  | [], c, d => EditStep.subst c d []
  | x :: u, c, d => EditStep.cons x (editStep_snoc_subst u c d)

theorem editStep_append_right {u v : List Nat} (h : EditStep u v) (w : List Nat) :
    EditStep (u ++ w) (v ++ w) := by
  induction h with
  | insert c l => exact EditStep.insert c (l ++ w)
  | delete c l => exact EditStep.delete c (l ++ w)
  | subst c d l => exact EditStep.subst c d (l ++ w)
  | cons c _ ih => exact EditStep.cons c ih

theorem editStep_reverse {a b : List Nat} (h : EditStep a b) :
    EditStep a.reverse b.reverse := by
  induction h with
  | insert c l => simpa using editStep_snoc_insert l.reverse c
  | delete c l => simpa using editStep_symm (editStep_snoc_insert l.reverse c)
  | subst c d l => simpa using editStep_snoc_subst l.reverse c d
  | cons c _ ih => simpa using editStep_append_right ih [c]

theorem chainN_reverse {n : Nat} {a b : List Nat} (h : ChainN n a b) :
    ChainN n a.reverse b.reverse := by
  induction h with
  | refl a => exact ChainN.refl _
  | step e _ ih => exact ChainN.step (editStep_reverse e) ih

theorem lev_reverse (a b : List Nat) : lev a.reverse b.reverse = lev a b := by
  have key : ∀ u v : List Nat, lev u.reverse v.reverse ≤ lev u v := fun u v =>
    chainN_lev_le (chainN_reverse (exists_chain u v))
  exact le_antisymm (key a b) (by simpa using key a.reverse b.reverse)

/-- The Levenshtein recurrence also holds at the tail end of both sequences,
in exactly the shape of the inner-loop update of `calc_dist_bytes`. -/
theorem lev_snoc_snoc (p t : List Nat) (c d : Nat) :
    lev (p ++ [c]) (t ++ [d]) =
      min (min (lev p (t ++ [d]) + 1) (lev (p ++ [c]) t + 1))
        (lev p t + (if c = d then 0 else 1)) := by
  have h1 : lev (p ++ [c]) (t ++ [d]) = lev (c :: p.reverse) (d :: t.reverse) := by
    rw [← lev_reverse]
    simp
  have h2 : lev p.reverse (d :: t.reverse) = lev p (t ++ [d]) := by
    have := lev_reverse p (t ++ [d])
    simpa using this
  have h3 : lev (c :: p.reverse) t.reverse = lev (p ++ [c]) t := by
    have := lev_reverse (p ++ [c]) t
    simpa using this
  have h4 : lev p.reverse t.reverse = lev p t := lev_reverse p t
  rw [h1, lev_cons_cons, h2, h3, h4]

/-! ## The two-row loop computes the recurrence -/

theorem rowAux_levCells (c : Nat) (p : List Nat) :
    ∀ (r t : List Nat),
      rowAux c r (lev p t :: levCells p t r) (lev (p ++ [c]) t) = levCells (p ++ [c]) t r := by
  intro r
  induction r with
  | nil => intro t; simp [rowAux, levCells]
  | cons d r' ih =>
      intro t
      simp only [levCells, rowAux]
      rw [← lev_snoc_snoc p t c d]
      rw [ih (t ++ [d])]

theorem levLoop_levCells (b : List Nat) :
    ∀ (as p : List Nat),
      levLoop as b (lev p [] :: levCells p [] b) p.length =
        lev (p ++ as) [] :: levCells (p ++ as) [] b := by
  intro as
  induction as with
  | nil => intro p; simp [levLoop]
  | cons c as' ih =>
      intro p
      simp only [levLoop]
      have e1 : lev (p ++ [c]) [] = p.length + 1 := by simp [lev_nil_right]
      have hprev :
          (p.length + 1) :: rowAux c b (lev p [] :: levCells p [] b) (p.length + 1) =
            lev (p ++ [c]) [] :: levCells (p ++ [c]) [] b := by
        rw [← e1, rowAux_levCells c p b []]
      rw [hprev]
      have e2 : p.length + 1 = (p ++ [c]).length := by simp
      rw [e2, ih (p ++ [c])]
      simp

theorem levCells_nil_left : ∀ (r t : List Nat),
    levCells [] t r = (List.range r.length).map (fun j => t.length + (j + 1)) := by
  intro r
  induction r with
  | nil => intro t; simp [levCells]
  | cons d r' ih =>
      intro t
      simp only [levCells, lev_nil_left, ih (t ++ [d]), List.length_cons,
        List.range_succ_eq_map, List.map_cons, List.map_map]
      congr 1
      · simp
      · apply List.map_congr_left
        intro j _
        simp [Function.comp]
        omega

theorem initial_row (b : List Nat) :
    List.range (b.length + 1) = lev [] [] :: levCells [] [] b := by
  rw [levCells_nil_left b [], List.range_succ_eq_map]
  simp [lev]

theorem row_getD_last (p : List Nat) :
    ∀ (r t : List Nat), (lev p t :: levCells p t r).getD r.length 0 = lev p (t ++ r) := by
  intro r
  induction r with
  | nil => intro t; simp [levCells]
  | cons d r' ih =>
      intro t
      simp only [levCells, List.length_cons, List.getD_cons_succ]
      rw [ih (t ++ [d])]
      simp

/-- The rolling-two-row program computes exactly the textbook recurrence. -/
theorem calc_dist_bytes_eq_lev (a b : List Nat) : calc_dist_bytes a b = lev a b := by
  unfold calc_dist_bytes
  by_cases ha : a.length = 0
  · have : a = [] := List.length_eq_zero.mp ha
    subst this
    simp [lev_nil_left]
  · rw [if_neg ha]
    by_cases hb : b.length = 0
    · have : b = [] := List.length_eq_zero.mp hb
      subst this
      simp [lev_nil_right]
    · rw [if_neg hb, initial_row b]
      have h0 : levLoop a b (lev [] [] :: levCells [] [] b) (0 : Nat) =
          lev a [] :: levCells a [] b := by
        have := levLoop_levCells b a []
        simpa using this
      rw [h0]
      have := row_getD_last a b []
      simpa using this

/-! ## Tokenizer and matcher facts -/

theorem splitWsAux_all_ws : ∀ (s : List Nat), (∀ c ∈ s, isWhitespaceChar c = true) →
    splitWsAux s [] = [] := by
  intro s
  induction s with
  | nil => intro _; rfl
  | cons c cs ih =>
      intro h
      have hc : isWhitespaceChar c = true := h c (List.mem_cons_self c cs)
      simp only [splitWsAux, hc, if_true, List.isEmpty_nil, if_pos]
      exact ih (fun x hx => h x (List.mem_cons_of_mem c hx))

theorem splitWs_all_ws (s : List Nat) (h : ∀ c ∈ s, isWhitespaceChar c = true) :
    splitWs s = [] :=
  splitWsAux_all_ws s h

theorem foldl_min_le : ∀ (ds : List Nat) (d x : Nat), x ∈ d :: ds → ds.foldl min d ≤ x := by
  intro ds
  induction ds with
  | nil =>
      intro d x hx
      simp at hx
      simp [hx]
  | cons e ds ih =>
      intro d x hx
      simp only [List.foldl_cons]
      rcases List.mem_cons.mp hx with h | h
      · exact le_trans (le_trans (ih (min d e) (min d e) (List.mem_cons_self _ _))
          (min_le_left d e)) (le_of_eq h.symm)
      · rcases List.mem_cons.mp h with h' | h'
        · exact le_trans (le_trans (ih (min d e) (min d e) (List.mem_cons_self _ _))
            (min_le_right d e)) (le_of_eq h'.symm)
        · exact ih (min d e) x (List.mem_cons_of_mem _ h')

theorem foldl_min_mem : ∀ (ds : List Nat) (d : Nat), ds.foldl min d ∈ d :: ds := by
  intro ds
  induction ds with
  | nil => intro d; simp
  | cons e ds ih =>
      intro d
      simp only [List.foldl_cons]
      rcases List.mem_cons.mp (ih (min d e)) with h | h
      · rw [h]
        rcases min_choice d e with h' | h'
        · rw [h']
          exact List.mem_cons_self _ _
        · rw [h']
          exact List.mem_cons_of_mem d (List.mem_cons_self _ _)
      · exact List.mem_cons_of_mem d (List.mem_cons_of_mem e h)

theorem fuzzy_match_no_space (q name : List Nat) (h : ¬ 32 ∈ name) :
    fuzzy_match q name = calc_dist_bytes q (strBytes name) := by
  simp [fuzzy_match, h]

theorem fuzzy_match_tokens (q name : List Nat) (h : 32 ∈ name) (t : List Nat)
    (ts : List (List Nat)) (hs : splitWs name = t :: ts) :
    fuzzy_match q name =
      (ts.map (fun part => calc_dist_bytes q (strBytes part))).foldl min
        (calc_dist_bytes q (strBytes t)) := by
  simp [fuzzy_match, h, hs]

theorem fuzzy_match_no_tokens (q name : List Nat) (h : 32 ∈ name)
    (hs : splitWs name = []) : fuzzy_match q name = usizeMax := by
  simp [fuzzy_match, h, hs]

/-! ## The search pipeline -/

theorem calc_nil_left (b : List Nat) : calc_dist_bytes [] b = b.length := by
  simp [calc_dist_bytes]

theorem calc_nil_right (a : List Nat) : calc_dist_bytes a [] = a.length := by
  cases a <;> simp [calc_dist_bytes]

/-- Every entry of `post_search` is an element of the corpus, carries exactly
the distance `fuzzy_match` computed for its name, and passed the `< 3`
threshold. -/
theorem post_search_mem {q : List Nat} {ns : List (List Nat)} {r : SearchResult}
    (h : r ∈ post_search q ns) :
    r.name ∈ ns ∧ r.distance = fuzzy_match q r.name ∧ r.distance < 3 := by
  unfold post_search at h
  have h1 : r ∈ List.insertionSort distLe (scoreFilter q ns) := List.take_subset 10 _ h
  have h2 : r ∈ scoreFilter q ns := (List.perm_insertionSort distLe _).mem_iff.mp h1
  unfold scoreFilter at h2
  rw [List.mem_filterMap] at h2
  obtain ⟨name, hname, heq⟩ := h2
  dsimp only at heq
  by_cases hd : fuzzy_match q name < 3
  · rw [if_pos hd] at heq
    have hr : r = ⟨name, fuzzy_match q name⟩ := (Option.some.inj heq).symm
    subst hr
    exact ⟨hname, rfl, hd⟩
  · rw [if_neg hd] at heq
    exact absurd heq (by simp)

/-- Stability of one ordered insertion: restricted to any one distance value
`d`, inserting `x` either prepends `x` (when `x` has distance `d`; every
element skipped on the way in has a strictly smaller distance, hence is not in
the `d`-class) or leaves the `d`-class unchanged. -/
theorem filter_orderedInsert (x : SearchResult) (d : Nat) :
    ∀ s : List SearchResult,
      (List.orderedInsert distLe x s).filter (fun r => r.distance == d) =
        if x.distance = d then x :: s.filter (fun r => r.distance == d)
        else s.filter (fun r => r.distance == d) := by
  intro s
  induction s with
  | nil =>
      by_cases hxd : x.distance = d <;>
        simp [List.orderedInsert, List.filter_cons, hxd]
  | cons y ys ih =>
      unfold List.orderedInsert
      by_cases hxy : distLe x y
      · rw [if_pos hxy]
        by_cases hxd : x.distance = d <;> simp [List.filter_cons, hxd]
      · rw [if_neg hxy]
        have hyx : y.distance < x.distance := by
          simpa [distLe] using hxy
        by_cases hxd : x.distance = d
        · have hyd : ¬ y.distance = d := by omega
          simp [List.filter_cons, hyd, hxd, ih]
        · simp [List.filter_cons, hxd, ih]

/-- Stability of the whole sort: each distance class of the sorted list is the
distance class of the input, in the input's order. -/
theorem filter_insertionSort (d : Nat) :
    ∀ l : List SearchResult,
      (List.insertionSort distLe l).filter (fun r => r.distance == d) =
        l.filter (fun r => r.distance == d) := by
  intro l
  induction l with
  | nil => rfl
  | cons a l ih =>
      simp only [List.insertionSort]
      rw [filter_orderedInsert a d _, ih, List.filter_cons]
      by_cases h : a.distance = d <;> simp [h]

/-! ## The claims -/

/-- C1: `calc_dist_bytes` computes the classic Levenshtein edit distance:
it equals the textbook dynamic-programming recurrence `lev`, and it is the
least number of single-character insertions, deletions and substitutions
(`EditStep` chains) transforming the first sequence into the second. -/
theorem calc_dist_bytes_is_levenshtein (a b : List Nat) :
    calc_dist_bytes a b = lev a b ∧
      IsLeast {n : Nat | ChainN n a b} (calc_dist_bytes a b) := by
  refine ⟨calc_dist_bytes_eq_lev a b, ?_, ?_⟩
  · show ChainN (calc_dist_bytes a b) a b
    rw [calc_dist_bytes_eq_lev]
    exact exists_chain a b
  · intro n hn
    rw [calc_dist_bytes_eq_lev]
    exact chainN_lev_le hn

/-- C2: for every query and corpus the result list of `post_search` has at
most 10 entries, every entry's distance is below 3, the list is sorted
ascending by distance, and — stability — for each distance value `d` the
entries with distance `d` form, in order, a sublist of the corpus-order
candidate list `scoreFilter`, so equal-distance entries keep their original
corpus order. -/
theorem post_search_bounded_sorted_stable (q : List Nat) (ns : List (List Nat)) :
    (post_search q ns).length ≤ 10 ∧
    (∀ r ∈ post_search q ns, r.distance < 3) ∧
    (post_search q ns).Pairwise distLe ∧
    ∀ d : Nat,
      List.Sublist ((post_search q ns).filter (fun r => r.distance == d))
        ((scoreFilter q ns).filter (fun r => r.distance == d)) := by
  refine ⟨?_, ?_, ?_, ?_⟩
  · unfold post_search
    exact List.length_take_le 10 _
  · intro r hr
    exact (post_search_mem hr).2.2
  · unfold post_search
    have hs : (List.insertionSort distLe (scoreFilter q ns)).Pairwise distLe :=
      List.sorted_insertionSort distLe _
    exact List.Pairwise.sublist (List.take_sublist _ _) hs
  · intro d
    have h1 := List.Sublist.filter (fun r : SearchResult => r.distance == d)
      (List.take_sublist 10 (List.insertionSort distLe (scoreFilter q ns)))
    rw [filter_insertionSort d] at h1
    exact h1

/-- C3 counterexample: the claim's branch condition is "contains whitespace",
but the code's guard is `contains(' ')` — the ASCII space only.  On the
candidate `a<TAB>b` (`[97, 9, 98]`, whitespace but no space) with query `a`,
the code scores the whole string (distance 2) while the spec's token-minimum
policy (`fuzzy_match_spec`) gives 0. -/
theorem fuzzy_match_whitespace_guard_cex :
    fuzzy_match [97] [97, 9, 98] = 2 ∧ fuzzy_match_spec [97] [97, 9, 98] = 0 := by
  constructor <;> decide

/-- C3 (amended): with the branch condition being "contains a space character
(U+0020)" rather than "contains whitespace": a candidate with no space is
scored whole; a candidate with a space is scored as the minimum of
`calc_dist_bytes` over its whitespace-delimited tokens (`usize::MAX` when
there is no token). -/
theorem fuzzy_match_token_min (q name : List Nat) :
    (¬ 32 ∈ name → fuzzy_match q name = calc_dist_bytes q (strBytes name)) ∧
    (32 ∈ name → splitWs name ≠ [] →
      (∃ t ∈ splitWs name, fuzzy_match q name = calc_dist_bytes q (strBytes t)) ∧
        ∀ t ∈ splitWs name, fuzzy_match q name ≤ calc_dist_bytes q (strBytes t)) ∧
    (32 ∈ name → splitWs name = [] → fuzzy_match q name = usizeMax) := by
  refine ⟨fun h => fuzzy_match_no_space q name h, ?_, fun h hs => fuzzy_match_no_tokens q name h hs⟩
  intro h hnil
  cases hs : splitWs name with
  | nil => exact absurd hs hnil
  | cons t ts =>
      have hfm := fuzzy_match_tokens q name h t ts hs
      constructor
      · have hmem : (ts.map (fun part => calc_dist_bytes q (strBytes part))).foldl min
            (calc_dist_bytes q (strBytes t)) ∈
            (t :: ts).map (fun part => calc_dist_bytes q (strBytes part)) := by
          simpa using foldl_min_mem (ts.map (fun part => calc_dist_bytes q (strBytes part)))
            (calc_dist_bytes q (strBytes t))
        rw [List.mem_map] at hmem
        obtain ⟨t', ht', he⟩ := hmem
        refine ⟨t', ht', ?_⟩
        rw [hfm, ← he]
      · intro t' ht'
        have hmem : calc_dist_bytes q (strBytes t') ∈
            calc_dist_bytes q (strBytes t) ::
              ts.map (fun part => calc_dist_bytes q (strBytes part)) := by
          simpa using List.mem_map_of_mem (fun part => calc_dist_bytes q (strBytes part)) ht'
        rw [hfm]
        exact foldl_min_le _ _ _ hmem

/-- Witness for C3 (amended) at query `a`, candidate `a b`. -/
theorem fuzzy_match_token_min_witness :
    (∃ t ∈ splitWs [97, 32, 98],
        fuzzy_match [97] [97, 32, 98] = calc_dist_bytes [97] (strBytes t)) ∧
      ∀ t ∈ splitWs [97, 32, 98],
        fuzzy_match [97] [97, 32, 98] ≤ calc_dist_bytes [97] (strBytes t) :=
  (fuzzy_match_token_min [97] [97, 32, 98]).2.1 (by decide) (by decide)

/-- C4 counterexample: a candidate consisting entirely of whitespace can
appear in a result set.  The all-whitespace candidate `[9]` (a single tab,
no space character) is scored whole — distance 1 from query `x` — and is
returned by the search. -/
theorem all_whitespace_result_cex :
    post_search [120] [[9]] = [⟨[9], 1⟩] ∧ isWhitespaceChar 9 = true := by
  constructor <;> decide

/-- C4 (amended): an all-whitespace candidate that contains at least one
space character (U+0020) splits into zero tokens, gets distance `usize::MAX`
from `fuzzy_match` (which is total and does not fail), and never appears in
the result of any search.  (An all-whitespace candidate with no space — e.g.
tabs only — is instead scored as a whole string and can appear.) -/
theorem all_whitespace_space_guard (q name : List Nat)
    (hws : ∀ c ∈ name, isWhitespaceChar c = true) (hsp : 32 ∈ name) :
    fuzzy_match q name = usizeMax ∧
      ∀ (ns : List (List Nat)) (r : SearchResult), r ∈ post_search q ns → r.name ≠ name := by
  have hnil : splitWs name = [] := splitWs_all_ws name hws
  have hmax : fuzzy_match q name = usizeMax := fuzzy_match_no_tokens q name hsp hnil
  refine ⟨hmax, ?_⟩
  intro ns r hr hneq
  obtain ⟨-, hdist, hlt⟩ := post_search_mem hr
  rw [hneq, hmax] at hdist
  rw [hdist] at hlt
  have : (3 : Nat) ≤ usizeMax := by norm_num [usizeMax]
  omega

/-- Witness for C4 (amended) at query `x`, candidate a single space. -/
theorem all_whitespace_space_guard_witness :
    fuzzy_match [120] [32] = usizeMax ∧
      ∀ (ns : List (List Nat)) (r : SearchResult),
        r ∈ post_search [120] ns → r.name ≠ [32] :=
  all_whitespace_space_guard [120] [32] (by decide) (by decide)

/-- C5: the search is deterministic and idempotent — two calls on the same
query and corpus give identical result lists, `response_time` excluded — and
the parallel fan-out is order-preserving: scoring any chunked partition of the
corpus and concatenating the chunk results in corpus order agrees with scoring
the whole corpus sequentially, so the outcome does not depend on chunking. -/
theorem post_search_deterministic (q : List Nat) (chunks : List (List (List Nat)))
    (t1 t2 : Nat) :
    (searchResponse q chunks.flatten t1).results = (searchResponse q chunks.flatten t2).results ∧
      scoreFilter q chunks.flatten = (chunks.map (scoreFilter q)).flatten := by
  refine ⟨rfl, ?_⟩
  induction chunks with
  | nil => rfl
  | cons ch chs ih =>
      simp only [List.flatten_cons, List.map_cons]
      unfold scoreFilter at *
      rw [List.filterMap_append, ih]

/-- C6: the search has no error path: an empty corpus yields the empty result
list; the empty query is accepted and scored like any other — against a
single-token candidate it yields the candidate's own byte length — and any
entry returned for the empty query is a corpus element with its computed
distance, subject to the usual threshold. -/
theorem post_search_no_error (q : List Nat) (ns : List (List Nat)) (name : List Nat)
    (r : SearchResult) :
    post_search q [] = [] ∧
    (¬ 32 ∈ name → fuzzy_match [] name = (strBytes name).length) ∧
    (r ∈ post_search [] ns →
      r.name ∈ ns ∧ r.distance = fuzzy_match [] r.name ∧ r.distance < 3) := by
  refine ⟨rfl, ?_, fun h => post_search_mem h⟩
  intro h
  rw [fuzzy_match_no_space _ _ h, calc_nil_left]

/-- Witness for C6: empty query against the corpus `[[97]]`. -/
theorem post_search_no_error_witness :
    fuzzy_match [] [97] = (strBytes [97]).length ∧
      ((⟨[97], 1⟩ : SearchResult).name ∈ [[97]] ∧
        (⟨[97], 1⟩ : SearchResult).distance = fuzzy_match [] (⟨[97], 1⟩ : SearchResult).name ∧
        (⟨[97], 1⟩ : SearchResult).distance < 3) :=
  ⟨(post_search_no_error [] [[97]] [97] ⟨[97], 1⟩).2.1 (by decide),
   (post_search_no_error [] [[97]] [97] ⟨[97], 1⟩).2.2 (by decide)⟩

/-- C7: the early returns of `calc_dist_bytes`: against an empty first
sequence the distance is the second's length, and symmetrically. -/
theorem calc_dist_bytes_empty (a b : List Nat) :
    calc_dist_bytes [] b = b.length ∧ calc_dist_bytes a [] = a.length :=
  ⟨calc_nil_left b, calc_nil_right a⟩

/-- C8: `calc_dist_bytes` is symmetric. -/
theorem calc_dist_bytes_symm (a b : List Nat) :
    calc_dist_bytes a b = calc_dist_bytes b a := by
  rw [calc_dist_bytes_eq_lev, calc_dist_bytes_eq_lev]
  exact le_antisymm (chainN_lev_le (chainN_symm (exists_chain b a)))
    (chainN_lev_le (chainN_symm (exists_chain a b)))

/-- C9: `calc_dist_bytes` satisfies the triangle inequality. -/
theorem calc_dist_bytes_triangle (a b c : List Nat) :
    calc_dist_bytes a c ≤ calc_dist_bytes a b + calc_dist_bytes b c := by
  rw [calc_dist_bytes_eq_lev, calc_dist_bytes_eq_lev, calc_dist_bytes_eq_lev]
  exact chainN_lev_le (chainN_trans (exists_chain a b) (exists_chain b c))

/-- C10: soundness of results — every entry returned by `post_search` pairs a
corpus element with exactly the distance `fuzzy_match` computes for it. -/
theorem post_search_sound (q : List Nat) (ns : List (List Nat)) (r : SearchResult)
    (h : r ∈ post_search q ns) :
    r.name ∈ ns ∧ r.distance = fuzzy_match q r.name :=
  ⟨(post_search_mem h).1, (post_search_mem h).2.1⟩

/-- Witness for C10: query `a` against the corpus `[[97, 98]]`. -/
theorem post_search_sound_witness :
    (⟨[97, 98], 1⟩ : SearchResult).name ∈ [[97, 98]] ∧
      (⟨[97, 98], 1⟩ : SearchResult).distance =
        fuzzy_match [97] (⟨[97, 98], 1⟩ : SearchResult).name :=
  post_search_sound [97] [[97, 98]] ⟨[97, 98], 1⟩ (by decide)

